import Mathlib

/-!
Determinant computation of `Trabalho1.2/determinante.c`.

A shallow embedding of `detMatrix`, `detMatrixHelper` and of the work split
computed in `main`, with `double` replaced by exact rationals.

Modelling conventions.

* A `double *` block is a map from offsets to values (`Mem`); a store is a
  `Function.update`.
* The row blocks `m[i]` of `detMatrix` hold `n - 1` doubles (line 236) and are
  addressed by an `Int` offset, because the copy loop stores at offset `j - 1`
  with `j = 0`.  A store outside a block has no defined behaviour in C: the
  functions that go through it return an `Option`, and `none` stands for a run
  without a defined result.  What the allocator leaves in front of a block is
  not part of the program, so it is a parameter `pad`: the number of cells in
  front of a block that a store may touch without ending the run.  `pad = 0`
  is C; `pad ≥ 1` is an allocator that absorbs the store at offset `-1`.
* `int` loop counters and dimensions are natural numbers: all of them are
  non-negative in the calls studied, and `n - 1` is only used with the
  truncated value where the C loop does not run either.
* `for (i = lo; i < hi; i++) body` is `forLoop lo body s (hi - lo)`.
-/

namespace Determinante

/-- A block of `double`s addressed by a non-negative offset. -/
abbrev Mem := Nat → ℚ

/-- A `double **`: row pointer, then offset inside the row. -/
abbrev Mat := Nat → Nat → ℚ

/-- The state after `cnt` iterations of `for (i = lo; ...; i++) body`. -/
def forLoop {σ : Type} (lo : Nat) (body : Nat → σ → σ) (s : σ) : Nat → σ
  | 0 => s
  | cnt + 1 => body (lo + cnt) (forLoop lo body s cnt)

/-- The C library function `fabs`. -/
def fabs (x : ℚ) : ℚ := |x|

/-- Lines 272-279: the search for the pivot row; the state is `(fMaxElem, m)`. -/
def pivotSearch (nDim k : Nat) (pfMatr : Mem) : ℚ × Nat :=
  forLoop (k + 1)
    (fun i st =>
      if st.1 < fabs (pfMatr (i * nDim + k)) then (pfMatr (i * nDim + k), i) else st)
    (fabs (pfMatr (k * nDim + k)), k) (nDim - (k + 1))

/-- Lines 283-287: exchange of rows `k` and `m` from column `k` on. -/
def swapRows (nDim k m : Nat) (pfMatr : Mem) : Mem :=
  forLoop k
    (fun i pf =>
      let fAcc := pf (k * nDim + i)
      let pf1 := Function.update pf (k * nDim + i) (pf (m * nDim + i))
      Function.update pf1 (m * nDim + i) fAcc)
    pfMatr (nDim - k)

/-- Lines 295-297: the body of the triangulation loop for one row `j`. -/
def eliminateRow (nDim k j : Nat) (pfMatr : Mem) : Mem :=
  let fAcc := -pfMatr (j * nDim + k) / pfMatr (k * nDim + k)
  forLoop k
    (fun i pf => Function.update pf (j * nDim + i) (pf (j * nDim + i) + fAcc * pf (k * nDim + i)))
    pfMatr (nDim - k)

/-- Lines 294-298: triangulation below the pivot `k`. -/
def triangulate (nDim k : Nat) (pfMatr : Mem) : Mem :=
  forLoop (k + 1) (fun j pf => eliminateRow nDim k j pf) pfMatr (nDim - (k + 1))

/-- Lines 301-302: multiplication of `fDet` by the diagonal elements. -/
def diagProduct (nDim : Nat) (fDet : ℚ) (pfMatr : Mem) : ℚ :=
  forLoop 0 (fun i d => d * pfMatr (i * nDim + i)) fDet nDim

/-- Lines 269-304: the loop over the base rows with `cnt` iterations left,
starting at base row `k`, followed by the diagonal product.  The early
`return 0.0` of line 291 ends the computation. -/
def helperLoop (nDim : Nat) : Nat → Nat → ℚ → Mem → ℚ
  | 0, _, fDet, pfMatr => diagProduct nDim fDet pfMatr
  | cnt + 1, k, fDet, pfMatr =>
    let m := (pivotSearch nDim k pfMatr).2
    let pf1 := if m ≠ k then swapRows nDim k m pfMatr else pfMatr
    let fDet1 := if m ≠ k then fDet * (-1) else fDet
    if pf1 (k * nDim + k) = 0 then 0
    else helperLoop nDim cnt (k + 1) fDet1 (triangulate nDim k pf1)

/-- The function `detMatrixHelper` (lines 262-305). -/
def detMatrixHelper (nDim : Nat) (pfMatr : Mem) : ℚ :=
  helperLoop nDim (nDim - 1) 0 1 pfMatr

/-- A store of `v` at offset `off` of a block of `size` doubles obtained from
`malloc`, with `pad` cells in front of the block that a store may touch.
Outside that range the store has no defined behaviour. -/
def storeRow (pad size : Nat) (row : Int → ℚ) (off : Int) (v : ℚ) : Option (Int → ℚ) :=
  if -(pad : Int) ≤ off ∧ off < (size : Int) then some (Function.update row off v) else none

/-- Line 241: `m[i - 1][j - 1] = a[i][j]`, on row blocks of `n - 1` doubles
(line 236). -/
def copyCell (pad : Nat) (a : Mat) (n i j : Nat) (m : Nat → Int → ℚ) :
    Option (Nat → Int → ℚ) :=
  (storeRow pad (n - 1) (m (i - 1)) ((j : Int) - 1) (a i j)).map (Function.update m (i - 1))

/-- Lines 239-241: the copy into the row blocks `m[i - 1]`; the offset
`j - 1` is `-1` for `j = 0`, and the column `j1` of the caller is not used. -/
def copyRows (pad : Nat) (a : Mat) (n : Nat) (m : Nat → Int → ℚ) : Option (Nat → Int → ℚ) :=
  forLoop 1
    (fun i m1 => forLoop 0 (fun j m2 => m2.bind (copyCell pad a n i j)) m1 n)
    (some m) (n - 1)

/-- Lines 244-248: the flat array `fMatr` filled from the row blocks. -/
def flatten (dim : Nat) (m : Nat → Int → ℚ) (fMatr : Mem) : Mem :=
  forLoop 0
    (fun i f1 => forLoop 0 (fun j f2 => Function.update f2 (i * dim + j) (m i (j : Int))) f1 dim)
    fMatr dim

/-- The array handed to `detMatrixHelper` in iteration `j1` of `detMatrix`
(lines 232-248).  Freshly allocated storage is taken to hold zeros; every
cell that is read has been written before. -/
def minorArray (pad : Nat) (a : Mat) (n : Nat) (_j1 : Nat) : Option Mem :=
  (copyRows pad a n (fun _ _ => 0)).map (fun m => flatten (n - 1) m (fun _ => 0))

/-- The term added to `det` in iteration `j1` (line 250). -/
def cofactorTerm (pad : Nat) (a : Mat) (n j1 : Nat) : Option ℚ :=
  (minorArray pad a n j1).map
    (fun fMatr => (-1 : ℚ) ^ (1 + j1 + 1) * a 0 j1 * detMatrixHelper (n - 1) fMatr)

/-- The function `detMatrix` (lines 221-260). -/
def detMatrix (pad : Nat) (a : Mat) (s end_ n : Nat) : Option ℚ :=
  forLoop s
    (fun j1 det => det.bind (fun d => (cofactorTerm pad a n j1).map (fun t => d + t)))
    (some 0) (end_ - s)

/-- Line 118: `amountPerProcess = nMat / totalProcesses` on C `int`s. -/
def amountPerProcess (nMat totalProcesses : Int) : Int :=
  Int.tdiv nMat totalProcesses

/-- The number of matrices handled by each of the `totalProcesses` roles in
`main`: the master runs `amountPerProcess` iterations (line 126), every worker
is sent the same `amountPerProcess` (line 148) and runs as many (line 160). -/
def assignmentSizes (nMat totalProcesses : Int) : List Int :=
  List.replicate totalProcesses.toNat (amountPerProcess nMat totalProcesses)

/-- A matrix given by its rows; cells outside the rows read as zero. -/
def ofRows (rows : List (List ℚ)) : Mat :=
  fun i j => (rows.getD i []).getD j 0

/-- The flat row-major array of a matrix given by its rows. -/
def flatOf (l : List ℚ) : Mem := fun x => l.getD x 0

/-- The `n x n` matrix stored row-major in a flat array. -/
def toMatrix (n : Nat) (pfMatr : Mem) : Matrix (Fin n) (Fin n) ℚ :=
  Matrix.of fun i j => pfMatr (i.val * n + j.val)

/-- The `n x n` matrix held by a `double **`. -/
def matOf (n : Nat) (a : Mat) : Matrix (Fin n) (Fin n) ℚ :=
  Matrix.of fun i j => a i.val j.val

/-- The identity matrix as a `double **`. -/
def identity : Mat := fun i j => if i = j then 1 else 0

/-- The matrix `a` with rows `r1` and `r2` exchanged. -/
def rowSwap (a : Mat) (r1 r2 : Nat) : Mat :=
  fun i j => a (if i = r1 then r2 else if i = r2 then r1 else i) j

/-- The minor named by the specification: `a` without row `0` and column `j`. -/
def expectedMinor (a : Mat) (j : Nat) : Mat :=
  fun r c => a (r + 1) (if c < j then c else c + 1)

/-- Columns `0 .. k-1` of the `n x n` array hold zeros below the diagonal. -/
def LowerZero (n k : Nat) (pf : Mem) : Prop :=
  ∀ r c, c < k → c < r → r < n → pf (r * n + c) = 0

/-- The `n x n` array holds the identity matrix. -/
def IsIdent (n : Nat) (pf : Mem) : Prop :=
  ∀ r c, r < n → c < n → pf (r * n + c) = if r = c then 1 else 0

/-! ## Addresses and loops -/

theorem idx_eq_iff {n r c r' c' : Nat} (hc : c < n) (hc' : c' < n) :
    r * n + c = r' * n + c' ↔ r = r' ∧ c = c' := by
  constructor
  · intro h
    have hn : 0 < n := by omega
    have h1 : (r * n + c) / n = r := by
      rw [Nat.add_comm, Nat.add_mul_div_right _ _ hn, Nat.div_eq_of_lt hc, Nat.zero_add]
    have h2 : (r' * n + c') / n = r' := by
      rw [Nat.add_comm, Nat.add_mul_div_right _ _ hn, Nat.div_eq_of_lt hc', Nat.zero_add]
    have hr : r = r' := by rw [← h1, ← h2, h]
    subst hr
    exact ⟨rfl, by omega⟩
  · rintro ⟨rfl, rfl⟩
    rfl

theorem eliminateRow_loop_read (n k j : Nat) (fAcc : ℚ) (pf : Mem) (hjk : j ≠ k) (cnt : Nat)
    (hcnt : k + cnt ≤ n) (r c : Nat) (hc : c < n) :
    forLoop k
        (fun i pf => Function.update pf (j * n + i) (pf (j * n + i) + fAcc * pf (k * n + i)))
        pf cnt (r * n + c)
      = if r = j ∧ k ≤ c ∧ c < k + cnt then pf (j * n + c) + fAcc * pf (k * n + c)
        else pf (r * n + c) := by
  induction cnt generalizing r c with
  | zero =>
    have : ¬ (r = j ∧ k ≤ c ∧ c < k + 0) := by omega
    rw [if_neg this]
    rfl
  | succ cnt ih =>
    have hi : k + cnt < n := by omega
    simp only [forLoop, Function.update_apply, idx_eq_iff hc hi]
    rw [ih (by omega) j (k + cnt) hi, ih (by omega) k (k + cnt) hi, ih (by omega) r c hc]
    have e1 : ¬ (j = j ∧ k ≤ k + cnt ∧ k + cnt < k + cnt) := by omega
    have e2 : ¬ (k = j ∧ k ≤ k + cnt ∧ k + cnt < k + cnt) := by omega
    rw [if_neg e1, if_neg e2]
    by_cases h1 : r = j ∧ c = k + cnt
    · obtain ⟨rfl, rfl⟩ := h1
      have : r = r ∧ k ≤ k + cnt ∧ k + cnt < k + (cnt + 1) := by omega
      simp [this]
    · rw [if_neg h1]
      by_cases h2 : r = j ∧ k ≤ c ∧ c < k + cnt
      · have : r = j ∧ k ≤ c ∧ c < k + (cnt + 1) := by omega
        rw [if_pos h2, if_pos this]
      · have : ¬ (r = j ∧ k ≤ c ∧ c < k + (cnt + 1)) := by omega
        rw [if_neg h2, if_neg this]

theorem eliminateRow_read (n k j : Nat) (pf : Mem) (hjk : j ≠ k) (hk : k < n)
    (r c : Nat) (hc : c < n) :
    eliminateRow n k j pf (r * n + c)
      = if r = j ∧ k ≤ c then
          pf (j * n + c) + -pf (j * n + k) / pf (k * n + k) * pf (k * n + c)
        else pf (r * n + c) := by
  unfold eliminateRow
  rw [eliminateRow_loop_read n k j _ pf hjk (n - k) (by omega) r c hc]
  by_cases h : r = j ∧ k ≤ c
  · have : r = j ∧ k ≤ c ∧ c < k + (n - k) := by omega
    rw [if_pos h, if_pos this]
  · have : ¬ (r = j ∧ k ≤ c ∧ c < k + (n - k)) := by omega
    rw [if_neg h, if_neg this]

theorem triangulate_loop_read (n k : Nat) (pf : Mem) (hk : k < n) (cnt : Nat)
    (r c : Nat) (hc : c < n) :
    forLoop (k + 1) (fun j pf => eliminateRow n k j pf) pf cnt (r * n + c)
      = if k < r ∧ r < k + 1 + cnt ∧ k ≤ c then
          pf (r * n + c) + -pf (r * n + k) / pf (k * n + k) * pf (k * n + c)
        else pf (r * n + c) := by
  induction cnt generalizing r c with
  | zero =>
    have : ¬ (k < r ∧ r < k + 1 + 0 ∧ k ≤ c) := by omega
    rw [if_neg this]
    rfl
  | succ cnt ih =>
    simp only [forLoop]
    rw [eliminateRow_read n k (k + 1 + cnt) _ (by omega) hk r c hc]
    rw [ih (k + 1 + cnt) c hc, ih (k + 1 + cnt) k hk, ih k k hk, ih k c hc, ih r c hc]
    have e1 : ¬ (k < k + 1 + cnt ∧ k + 1 + cnt < k + 1 + cnt ∧ k ≤ c) := by omega
    have e2 : ¬ (k < k + 1 + cnt ∧ k + 1 + cnt < k + 1 + cnt ∧ k ≤ k) := by omega
    have e3 : ¬ (k < k ∧ k < k + 1 + cnt ∧ k ≤ k) := by omega
    have e4 : ¬ (k < k ∧ k < k + 1 + cnt ∧ k ≤ c) := by omega
    rw [if_neg e1, if_neg e2, if_neg e3, if_neg e4]
    by_cases h1 : r = k + 1 + cnt ∧ k ≤ c
    · obtain ⟨rfl, h1c⟩ := h1
      have : k < k + 1 + cnt ∧ k + 1 + cnt < k + 1 + (cnt + 1) ∧ k ≤ c := by omega
      rw [if_pos ⟨rfl, h1c⟩, if_pos this]
    · rw [if_neg h1]
      by_cases h2 : k < r ∧ r < k + 1 + cnt ∧ k ≤ c
      · have : k < r ∧ r < k + 1 + (cnt + 1) ∧ k ≤ c := by omega
        rw [if_pos h2, if_pos this]
      · have : ¬ (k < r ∧ r < k + 1 + (cnt + 1) ∧ k ≤ c) := by omega
        rw [if_neg h2, if_neg this]

theorem triangulate_read (n k : Nat) (pf : Mem) (hk : k < n) (r c : Nat) (hr : r < n)
    (hc : c < n) :
    triangulate n k pf (r * n + c)
      = if k < r ∧ k ≤ c then
          pf (r * n + c) + -pf (r * n + k) / pf (k * n + k) * pf (k * n + c)
        else pf (r * n + c) := by
  unfold triangulate
  rw [triangulate_loop_read n k pf hk _ r c hc]
  by_cases h : k < r ∧ k ≤ c
  · have : k < r ∧ r < k + 1 + (n - (k + 1)) ∧ k ≤ c := by omega
    rw [if_pos h, if_pos this]
  · have : ¬ (k < r ∧ r < k + 1 + (n - (k + 1)) ∧ k ≤ c) := by omega
    rw [if_neg h, if_neg this]

theorem swapRows_loop_read (n k m : Nat) (pf : Mem) (hmk : m ≠ k) (cnt : Nat)
    (hcnt : k + cnt ≤ n) (r c : Nat) (hc : c < n) :
    forLoop k
        (fun i pf =>
          let fAcc := pf (k * n + i)
          let pf1 := Function.update pf (k * n + i) (pf (m * n + i))
          Function.update pf1 (m * n + i) fAcc)
        pf cnt (r * n + c)
      = if k ≤ c ∧ c < k + cnt then
          (if r = k then pf (m * n + c) else if r = m then pf (k * n + c) else pf (r * n + c))
        else pf (r * n + c) := by
  induction cnt generalizing r c with
  | zero =>
    have : ¬ (k ≤ c ∧ c < k + 0) := by omega
    rw [if_neg this]
    rfl
  | succ cnt ih =>
    have hi : k + cnt < n := by omega
    simp only [forLoop, Function.update_apply, idx_eq_iff hc hi]
    rw [ih (by omega) k (k + cnt) hi, ih (by omega) m (k + cnt) hi, ih (by omega) r c hc]
    have e1 : ¬ (k ≤ k + cnt ∧ k + cnt < k + cnt) := by omega
    rw [if_neg e1, if_neg e1]
    by_cases h1 : c = k + cnt
    · subst h1
      have : k ≤ k + cnt ∧ k + cnt < k + (cnt + 1) := by omega
      rw [if_pos this, if_neg e1]
      by_cases h2 : r = m
      · subst h2
        simp [hmk]
      · by_cases h3 : r = k
        · subst h3
          simp [h2]
        · simp [h2, h3]
    · have e2 : ¬ (r = m ∧ c = k + cnt) := fun h => h1 h.2
      have e3 : ¬ (r = k ∧ c = k + cnt) := fun h => h1 h.2
      rw [if_neg e2, if_neg e3]
      by_cases h2 : k ≤ c ∧ c < k + cnt
      · have : k ≤ c ∧ c < k + (cnt + 1) := by omega
        rw [if_pos h2, if_pos this]
      · have : ¬ (k ≤ c ∧ c < k + (cnt + 1)) := by omega
        rw [if_neg h2, if_neg this]

theorem swapRows_read (n k m : Nat) (pf : Mem) (hmk : m ≠ k) (r c : Nat) (hc : c < n) :
    swapRows n k m pf (r * n + c)
      = if k ≤ c then
          (if r = k then pf (m * n + c) else if r = m then pf (k * n + c) else pf (r * n + c))
        else pf (r * n + c) := by
  unfold swapRows
  by_cases hk : k ≤ n
  · rw [swapRows_loop_read n k m pf hmk (n - k) (by omega) r c hc]
    by_cases h : k ≤ c
    · have : k ≤ c ∧ c < k + (n - k) := by omega
      rw [if_pos h, if_pos this]
    · have : ¬ (k ≤ c ∧ c < k + (n - k)) := by omega
      rw [if_neg h, if_neg this]
  · have h0 : n - k = 0 := by omega
    have : ¬ k ≤ c := by omega
    rw [h0, if_neg this]
    rfl

theorem pivotSearch_loop_bounds (n k : Nat) (pf : Mem) (cnt : Nat) :
    k ≤ (forLoop (k + 1)
          (fun i st => if st.1 < fabs (pf (i * n + k)) then (pf (i * n + k), i) else st)
          (fabs (pf (k * n + k)), k) cnt).2
    ∧ (forLoop (k + 1)
          (fun i st => if st.1 < fabs (pf (i * n + k)) then (pf (i * n + k), i) else st)
          (fabs (pf (k * n + k)), k) cnt).2 ≤ k + cnt := by
  induction cnt with
  | zero => simp [forLoop]
  | succ cnt ih =>
    simp only [forLoop]
    split
    · simp only []
      omega
    · omega

theorem pivotSearch_bounds (n k : Nat) (pf : Mem) (hk : k < n) :
    k ≤ (pivotSearch n k pf).2 ∧ (pivotSearch n k pf).2 < n := by
  have h := pivotSearch_loop_bounds n k pf (n - (k + 1))
  unfold pivotSearch
  omega

theorem forLoop_mul (f : Nat → ℚ) (d : ℚ) (cnt : Nat) :
    forLoop 0 (fun i d => d * f i) d cnt = d * ∏ i in Finset.range cnt, f i := by
  induction cnt with
  | zero => simp [forLoop]
  | succ cnt ih => simp [forLoop, ih, Finset.prod_range_succ, mul_assoc]

theorem diagProduct_eq (n : Nat) (fDet : ℚ) (pf : Mem) :
    diagProduct n fDet pf = fDet * ∏ i : Fin n, toMatrix n pf i i := by
  unfold diagProduct
  rw [forLoop_mul (fun i => pf (i * n + i)) fDet n, Finset.prod_range]
  rfl

/-! ## The elimination preserves the determinant -/

theorem swapRows_toMatrix (n k m : Nat) (pf : Mem) (hmk : m ≠ k) (hkm : k ≤ m) (hk : k < n)
    (hm : m < n) (hz : LowerZero n k pf) :
    toMatrix n (swapRows n k m pf)
      = (toMatrix n pf).submatrix (Equiv.swap (⟨k, hk⟩ : Fin n) ⟨m, hm⟩) id := by
  ext i j
  simp only [toMatrix, Matrix.of_apply, Matrix.submatrix_apply, id_eq]
  rw [swapRows_read n k m pf hmk i.val j.val j.isLt]
  by_cases hi1 : i = ⟨k, hk⟩
  · subst hi1
    rw [Equiv.swap_apply_left]
    by_cases hj : k ≤ j.val
    · simp [hj]
    · simp only [hj, if_false]
      rw [hz k j.val (by omega) (by omega) hk, hz m j.val (by omega) (by omega) hm]
  · have hi1v : i.val ≠ k := fun h => hi1 (Fin.ext h)
    by_cases hi2 : i = ⟨m, hm⟩
    · subst hi2
      rw [Equiv.swap_apply_right]
      by_cases hj : k ≤ j.val
      · simp [hj, hmk]
      · simp only [hj, if_false]
        rw [hz k j.val (by omega) (by omega) hk, hz m j.val (by omega) (by omega) hm]
    · have hi2v : i.val ≠ m := fun h => hi2 (Fin.ext h)
      rw [Equiv.swap_apply_of_ne_of_ne hi1 hi2]
      simp [hi1v, hi2v]

theorem swapRows_det (n k m : Nat) (pf : Mem) (hmk : m ≠ k) (hkm : k ≤ m) (hk : k < n)
    (hm : m < n) (hz : LowerZero n k pf) :
    (toMatrix n (swapRows n k m pf)).det = -(toMatrix n pf).det := by
  rw [swapRows_toMatrix n k m pf hmk hkm hk hm hz, Matrix.det_permute, Equiv.Perm.sign_swap]
  · simp
  · intro h
    exact hmk (congrArg Fin.val h).symm

theorem swapRows_lowerZero (n k m : Nat) (pf : Mem) (hmk : m ≠ k) (hkm : k ≤ m) (hm : m < n)
    (hz : LowerZero n k pf) : LowerZero n k (swapRows n k m pf) := by
  intro r c hck hcr hr
  rw [swapRows_read n k m pf hmk r c (by omega), if_neg (by omega)]
  exact hz r c hck hcr hr

theorem triangulate_det (n k : Nat) (pf : Mem) (hk : k < n) (hz : LowerZero n k pf) :
    (toMatrix n (triangulate n k pf)).det = (toMatrix n pf).det := by
  refine Matrix.det_eq_of_forall_row_eq_smul_add_const
    (fun i : Fin n => if k < i.val then -pf (i.val * n + k) / pf (k * n + k) else 0)
    ⟨k, hk⟩ (by simp) ?_
  intro i j
  simp only [toMatrix, Matrix.of_apply]
  rw [triangulate_read n k pf hk i.val j.val i.isLt j.isLt]
  by_cases hi : k < i.val
  · by_cases hj : k ≤ j.val
    · simp [hi, hj]
    · simp only [hi, hj, and_false, if_false, if_true]
      rw [hz k j.val (by omega) (by omega) hk]
      simp
  · simp [hi]

theorem triangulate_lowerZero (n k : Nat) (pf : Mem) (hk : k < n)
    (hp : pf (k * n + k) ≠ 0) (hz : LowerZero n k pf) :
    LowerZero n (k + 1) (triangulate n k pf) := by
  intro r c hck hcr hr
  rw [triangulate_read n k pf hk r c hr (by omega)]
  by_cases hc : c = k
  · subst hc
    rw [if_pos ⟨hcr, le_refl c⟩]
    field_simp
  · have hlt : c < k := by omega
    rw [if_neg (by omega)]
    exact hz r c hlt hcr hr

theorem helperLoop_spec (n : Nat) (cnt : Nat) :
    ∀ (k : Nat) (fDet : ℚ) (pf : Mem), k + cnt = n - 1 → LowerZero n k pf →
      helperLoop n cnt k fDet pf = 0 ∨ helperLoop n cnt k fDet pf = fDet * (toMatrix n pf).det := by
  induction cnt with
  | zero =>
    intro k fDet pf hk hz
    right
    simp only [helperLoop]
    rw [diagProduct_eq, Matrix.det_of_upperTriangular]
    intro i j hij
    simp only [id_eq] at hij
    have hji : j.val < i.val := hij
    exact hz i.val j.val (by omega) hji i.isLt
  | succ cnt ih =>
    intro k fDet pf hk hz
    have hkn : k < n := by omega
    obtain ⟨hm1, hm2⟩ := pivotSearch_bounds n k pf hkn
    simp only [helperLoop]
    by_cases hmk : (pivotSearch n k pf).2 = k
    · simp only [hmk, ne_eq, not_true_eq_false, if_false]
      by_cases hp : pf (k * n + k) = 0
      · left
        rw [if_pos hp]
      · rw [if_neg hp]
        have h := ih (k + 1) fDet (triangulate n k pf) (by omega)
          (triangulate_lowerZero n k pf hkn hp hz)
        rw [triangulate_det n k pf hkn hz] at h
        exact h
    · simp only [ne_eq, hmk, not_false_eq_true, if_true]
      have hz1 := swapRows_lowerZero n k _ pf hmk hm1 hm2 hz
      by_cases hp : swapRows n k (pivotSearch n k pf).2 pf (k * n + k) = 0
      · left
        rw [if_pos hp]
      · rw [if_neg hp]
        have h := ih (k + 1) (fDet * -1) (triangulate n k (swapRows n k (pivotSearch n k pf).2 pf))
          (by omega) (triangulate_lowerZero n k _ hkn hp hz1)
        rw [triangulate_det n k _ hkn hz1, swapRows_det n k _ pf hmk hm1 hkn hm2 hz] at h
        rcases h with h | h
        · exact Or.inl h
        · right
          rw [h]
          ring

theorem detMatrixHelper_spec (n : Nat) (pf : Mem) :
    detMatrixHelper n pf = 0 ∨ detMatrixHelper n pf = (toMatrix n pf).det := by
  have h := helperLoop_spec n (n - 1) 0 1 pf (by omega) (fun r c hc _ _ => absurd hc (by omega))
  rw [one_mul] at h
  exact h

/-! ## The array built by `detMatrix` -/

/-- The contents of the row blocks after `cnt` stores of line 241 in row
`i - 1`, when every store is made. -/
theorem copyRows_inner_read (a : Mat) (i : Nat) (m1 : Nat → Int → ℚ) (cnt : Nat)
    (r c : Nat) :
    forLoop 0
        (fun j m2 =>
          Function.update m2 (i - 1) (Function.update (m2 (i - 1)) ((j : Int) - 1) (a i j)))
        m1 cnt r (c : Int)
      = if r = i - 1 ∧ c + 1 < cnt then a i (c + 1) else m1 r (c : Int) := by
  induction cnt generalizing r c with
  | zero => simp [forLoop]
  | succ cnt ih =>
    simp only [forLoop]
    by_cases hr : r = i - 1
    · subst hr
      rw [Function.update_same, Function.update_apply]
      by_cases hc : c + 1 = cnt
      · subst hc
        have e1 : ((c : Int)) = ((0 + (c + 1) : Nat) : Int) - 1 := by push_cast; ring
        have e2 : i - 1 = i - 1 ∧ c + 1 < c + 1 + 1 := by omega
        rw [if_pos e1, if_pos e2, Nat.zero_add]
      · have e1 : ¬ ((c : Int)) = ((0 + cnt : Nat) : Int) - 1 := by push_cast; omega
        rw [if_neg e1, ih]
        by_cases h2 : c + 1 < cnt
        · rw [if_pos ⟨rfl, h2⟩, if_pos ⟨rfl, by omega⟩]
        · rw [if_neg (fun h => h2 h.2), if_neg (fun h => h2 (by omega))]
    · rw [Function.update_noteq hr, ih, if_neg (fun h => hr h.1), if_neg (fun h => hr h.1)]

theorem copyRows_loop_read (a : Mat) (n : Nat) (m0 : Nat → Int → ℚ) (cnt : Nat) (r c : Nat) :
    forLoop 1
        (fun i m1 =>
          forLoop 0
            (fun j m2 =>
              Function.update m2 (i - 1) (Function.update (m2 (i - 1)) ((j : Int) - 1) (a i j)))
            m1 n)
        m0 cnt r (c : Int)
      = if r < cnt ∧ c + 1 < n then a (r + 1) (c + 1) else m0 r (c : Int) := by
  induction cnt generalizing r c with
  | zero => simp [forLoop]
  | succ cnt ih =>
    simp only [forLoop]
    rw [copyRows_inner_read, ih]
    have e : 1 + cnt - 1 = cnt := by omega
    rw [e]
    by_cases h1 : r = cnt ∧ c + 1 < n
    · obtain ⟨rfl, h1c⟩ := h1
      rw [if_pos ⟨rfl, h1c⟩, if_pos ⟨by omega, h1c⟩, Nat.add_comm 1 r]
    · rw [if_neg h1]
      by_cases h2 : r < cnt ∧ c + 1 < n
      · rw [if_pos h2, if_pos ⟨by omega, h2.2⟩]
      · rw [if_neg h2, if_neg (by omega)]

theorem flatten_inner_read (dim i : Nat) (m : Nat → Int → ℚ) (f1 : Mem) (cnt : Nat)
    (hcnt : cnt ≤ dim) (r c : Nat) (hc : c < dim) :
    forLoop 0 (fun j f2 => Function.update f2 (i * dim + j) (m i (j : Int))) f1 cnt (r * dim + c)
      = if r = i ∧ c < cnt then m i (c : Int) else f1 (r * dim + c) := by
  induction cnt with
  | zero => simp [forLoop]
  | succ cnt ih =>
    have hj : 0 + cnt < dim := by omega
    simp only [forLoop, Function.update_apply, idx_eq_iff hc hj]
    rw [ih (by omega)]
    by_cases h1 : r = i ∧ c = 0 + cnt
    · obtain ⟨rfl, rfl⟩ := h1
      rw [if_pos ⟨rfl, rfl⟩, if_pos ⟨rfl, by omega⟩]
    · rw [if_neg h1]
      by_cases h2 : r = i ∧ c < cnt
      · rw [if_pos h2, if_pos ⟨h2.1, by omega⟩]
      · rw [if_neg h2, if_neg (by omega)]

theorem flatten_loop_read (dim : Nat) (m : Nat → Int → ℚ) (f0 : Mem) (cnt : Nat)
    (r c : Nat) (hc : c < dim) :
    forLoop 0
        (fun i f1 =>
          forLoop 0 (fun j f2 => Function.update f2 (i * dim + j) (m i (j : Int))) f1 dim)
        f0 cnt (r * dim + c)
      = if r < cnt then m r (c : Int) else f0 (r * dim + c) := by
  induction cnt with
  | zero => simp [forLoop]
  | succ cnt ih =>
    simp only [forLoop]
    rw [flatten_inner_read dim (0 + cnt) m _ dim (le_refl dim) r c hc, ih, Nat.zero_add]
    by_cases h1 : r = cnt
    · subst h1
      rw [if_pos ⟨rfl, hc⟩, if_pos (by omega)]
    · rw [if_neg (fun h => h1 h.1)]
      by_cases h2 : r < cnt
      · rw [if_pos h2, if_pos (by omega)]
      · rw [if_neg h2, if_neg (by omega)]

theorem copyCell_some (pad : Nat) (a : Mat) (n i j : Nat) (m : Nat → Int → ℚ)
    (hpad : 1 ≤ pad) (hj : j < n) :
    copyCell pad a n i j m
      = some (Function.update m (i - 1)
          (Function.update (m (i - 1)) ((j : Int) - 1) (a i j))) := by
  unfold copyCell storeRow
  have h : -(pad : Int) ≤ (j : Int) - 1 ∧ (j : Int) - 1 < ((n - 1 : Nat) : Int) := by omega
  rw [if_pos h]
  rfl

theorem copyRows_inner_some (pad : Nat) (a : Mat) (n i : Nat) (m1 : Nat → Int → ℚ)
    (hpad : 1 ≤ pad) (cnt : Nat) (hcnt : cnt ≤ n) :
    forLoop 0 (fun j m2 => m2.bind (copyCell pad a n i j)) (some m1) cnt
      = some (forLoop 0
          (fun j m2 =>
            Function.update m2 (i - 1) (Function.update (m2 (i - 1)) ((j : Int) - 1) (a i j)))
          m1 cnt) := by
  induction cnt with
  | zero => rfl
  | succ cnt ih =>
    simp only [forLoop]
    rw [ih (by omega), Option.some_bind, copyCell_some pad a n i _ _ hpad (by omega)]

theorem copyRows_outer_some (pad : Nat) (a : Mat) (n : Nat) (m0 : Nat → Int → ℚ)
    (hpad : 1 ≤ pad) (cnt : Nat) :
    forLoop 1
        (fun i m1 => forLoop 0 (fun j m2 => m2.bind (copyCell pad a n i j)) m1 n)
        (some m0) cnt
      = some (forLoop 1
          (fun i m1 =>
            forLoop 0
              (fun j m2 =>
                Function.update m2 (i - 1)
                  (Function.update (m2 (i - 1)) ((j : Int) - 1) (a i j)))
              m1 n)
          m0 cnt) := by
  induction cnt with
  | zero => rfl
  | succ cnt ih =>
    simp only [forLoop]
    rw [ih, copyRows_inner_some pad a n _ _ hpad n (le_refl n)]

/-- With a cell in front of every row block the copy ends, and whatever the
column `j1`, the array handed to `detMatrixHelper` holds rows `1 ..` and
columns `1 ..` of `a`. -/
theorem minorArray_read (pad : Nat) (a : Mat) (n j1 : Nat) (hpad : 1 ≤ pad) :
    ∃ f, minorArray pad a n j1 = some f
      ∧ ∀ i j, i < n - 1 → j < n - 1 → f (i * (n - 1) + j) = a (i + 1) (j + 1) := by
  unfold minorArray copyRows
  rw [copyRows_outer_some pad a n _ hpad (n - 1)]
  refine ⟨_, rfl, ?_⟩
  intro i j hi hj
  unfold flatten
  beta_reduce
  rw [flatten_loop_read (n - 1) _ _ (n - 1) i j hj, if_pos hi, copyRows_loop_read,
    if_pos ⟨hi, by omega⟩]

theorem copyRows_inner_none (a : Mat) (n i : Nat) (s : Option (Nat → Int → ℚ)) (cnt : Nat) :
    forLoop 0 (fun j m2 => m2.bind (copyCell 0 a n i j)) s (cnt + 1) = none := by
  induction cnt with
  | zero =>
    cases s with
    | none => rfl
    | some m =>
      simp only [forLoop, Option.some_bind]
      unfold copyCell storeRow
      have h : ¬ (-((0 : Nat) : Int) ≤ ((0 + 0 : Nat) : Int) - 1
          ∧ ((0 + 0 : Nat) : Int) - 1 < ((n - 1 : Nat) : Int)) := by omega
      rw [if_neg h]
      rfl
  | succ cnt ih =>
    rw [forLoop, ih]
    rfl

/-- In C the copy has no defined result as soon as it runs: its first store
is at offset `-1`. -/
theorem copyRows_none (a : Mat) (n : Nat) (m : Nat → Int → ℚ) (hn : 2 ≤ n) :
    copyRows 0 a n m = none := by
  obtain ⟨k, rfl⟩ : ∃ k, n = k + 2 := ⟨n - 2, by omega⟩
  unfold copyRows
  have e : k + 2 - 1 = k + 1 := by omega
  rw [e, forLoop]
  exact copyRows_inner_none a (k + 2) _ _ (k + 1)

theorem detMatrix_none (a : Mat) (n : Nat) (hn : 2 ≤ n) : detMatrix 0 a 0 n n = none := by
  obtain ⟨k, rfl⟩ : ∃ k, n = k + 1 := ⟨n - 1, by omega⟩
  have h : cofactorTerm 0 a (k + 1) (0 + k) = none := by
    unfold cofactorTerm minorArray
    rw [copyRows_none a (k + 1) _ hn]
    rfl
  unfold detMatrix
  simp only [Nat.sub_zero, forLoop]
  rw [h]
  generalize forLoop 0 _ (some (0 : ℚ)) k = x
  cases x <;> rfl

theorem detMatrix_eq_sum (pad : Nat) (a : Mat) (n : Nat) (f : Mem)
    (hf : minorArray pad a n 0 = some f) :
    detMatrix pad a 0 n n
      = some (∑ j1 in Finset.range n,
          (-1 : ℚ) ^ (1 + j1 + 1) * a 0 j1 * detMatrixHelper (n - 1) f) := by
  have ht : ∀ j1, cofactorTerm pad a n j1
      = some ((-1 : ℚ) ^ (1 + j1 + 1) * a 0 j1 * detMatrixHelper (n - 1) f) := by
    intro j1
    unfold cofactorTerm
    have e : minorArray pad a n j1 = minorArray pad a n 0 := rfl
    rw [e, hf]
    rfl
  have key : ∀ cnt,
      forLoop 0
          (fun j1 det => det.bind (fun d => (cofactorTerm pad a n j1).map (fun t => d + t)))
          (some 0) cnt
        = some (∑ j1 in Finset.range cnt,
            (-1 : ℚ) ^ (1 + j1 + 1) * a 0 j1 * detMatrixHelper (n - 1) f) := by
    intro cnt
    induction cnt with
    | zero => rfl
    | succ cnt ih =>
      simp only [forLoop]
      rw [ih, Option.some_bind, ht, Option.map_some', Finset.sum_range_succ, Nat.zero_add]
  unfold detMatrix
  rw [Nat.sub_zero]
  exact key n

/-! ## The elimination on an identity array -/

theorem pivotSearch_ident (n k : Nat) (pf : Mem) (hk : k < n) (hI : IsIdent n pf) :
    (pivotSearch n k pf).2 = k := by
  have key : ∀ cnt, k + 1 + cnt ≤ n →
      forLoop (k + 1)
        (fun i st => if st.1 < fabs (pf (i * n + k)) then (pf (i * n + k), i) else st)
        (fabs (pf (k * n + k)), k) cnt = (1, k) := by
    intro cnt
    induction cnt with
    | zero =>
      intro _
      simp [forLoop, hI k k hk hk, fabs]
    | succ cnt ih =>
      intro h
      simp only [forLoop]
      have e : ¬ (k + 1 + cnt = k) := by omega
      rw [ih (by omega), hI (k + 1 + cnt) k (by omega) hk, if_neg e]
      simp [fabs]
  unfold pivotSearch
  rw [key (n - (k + 1)) (by omega)]

theorem triangulate_ident (n k : Nat) (pf : Mem) (hk : k < n) (hI : IsIdent n pf) :
    IsIdent n (triangulate n k pf) := by
  intro r c hr hc
  rw [triangulate_read n k pf hk r c hr hc]
  by_cases h : k < r ∧ k ≤ c
  · rw [if_pos h, hI r k hr hk, if_neg (by omega), hI r c hr hc]
    simp
  · rw [if_neg h, hI r c hr hc]

theorem helperLoop_ident (n : Nat) (cnt : Nat) :
    ∀ (k : Nat) (fDet : ℚ) (pf : Mem), k + cnt = n - 1 → IsIdent n pf →
      helperLoop n cnt k fDet pf = fDet := by
  induction cnt with
  | zero =>
    intro k fDet pf _ hI
    simp only [helperLoop]
    unfold diagProduct
    rw [forLoop_mul (fun i => pf (i * n + i)) fDet n, Finset.prod_eq_one, mul_one]
    intro i hi
    have hin : i < n := Finset.mem_range.mp hi
    simp [hI i i hin hin]
  | succ cnt ih =>
    intro k fDet pf hk hI
    have hkn : k < n := by omega
    simp only [helperLoop]
    rw [pivotSearch_ident n k pf hkn hI]
    simp only [ne_eq, not_true_eq_false, if_false]
    rw [hI k k hkn hkn, if_pos rfl, if_neg one_ne_zero]
    exact ih (k + 1) fDet _ (by omega) (triangulate_ident n k pf hkn hI)

theorem detMatrixHelper_ident (n : Nat) (pf : Mem) (hI : IsIdent n pf) :
    detMatrixHelper n pf = 1 :=
  helperLoop_ident n (n - 1) 0 1 pf (by omega) hI

/-- With a cell in front of every row block, `detMatrix` returns `1` on the
identity matrix of any order `n ≥ 1`. -/
theorem padded_identity (pad n : Nat) (hpad : 1 ≤ pad) (hn : 1 ≤ n) :
    detMatrix pad identity 0 n n = some 1 := by
  obtain ⟨f, hf, hread⟩ := minorArray_read pad identity n 0 hpad
  have hI : IsIdent (n - 1) f := by
    intro r c hr hc
    rw [hread r c hr hc]
    simp [identity]
  rw [detMatrix_eq_sum pad identity n f hf, detMatrixHelper_ident (n - 1) f hI,
    Finset.sum_eq_single 0]
  · simp [identity]
  · intro j _ hj
    have : identity 0 j = 0 := by simp [identity, Ne.symm hj]
    rw [this]
    simp
  · intro h
    exact absurd (Finset.mem_range.mpr (by omega)) h

/-- With a cell in front of every row block, `detMatrix` returns `0` on a
matrix of which a row `r < n` holds `n` zeros. -/
theorem padded_zero_row (pad n : Nat) (a : Mat) (r : Nat) (hpad : 1 ≤ pad) (hr : r < n)
    (hz : ∀ j, j < n → a r j = 0) : detMatrix pad a 0 n n = some 0 := by
  obtain ⟨f, hf, hread⟩ := minorArray_read pad a n 0 hpad
  rw [detMatrix_eq_sum pad a n f hf]
  congr 1
  apply Finset.sum_eq_zero
  intro j1 hj1
  have hj : j1 < n := Finset.mem_range.mp hj1
  by_cases hr0 : r = 0
  · subst hr0
    rw [hz j1 hj]
    simp
  · have hdet : (toMatrix (n - 1) f).det = 0 := by
      apply Matrix.det_eq_zero_of_row_eq_zero (⟨r - 1, by omega⟩ : Fin (n - 1))
      intro c
      simp only [toMatrix, Matrix.of_apply]
      rw [hread (r - 1) c.val (by omega) c.isLt]
      have e : r - 1 + 1 = r := by omega
      rw [e]
      exact hz (c.val + 1) (by omega)
    have h0 : detMatrixHelper (n - 1) f = 0 := by
      rcases detMatrixHelper_spec (n - 1) f with h | h
      · exact h
      · rw [h, hdet]
    rw [h0, mul_zero]

/-! ## The claims -/

/-- C1: `detMatrix` does not return the determinant.  On `[[1,2],[3,4]]`,
whose determinant is `-2`, the C run has no defined result (store at offset
`-1`, line 241), and with that store absorbed the value is `-4`.  On the
singular matrix `[[1,2,3],[2,4,6],[1,1,1]]`, whose determinant is `0`, the C
run has no defined result either, and with the store absorbed the value is
`-4`. -/
theorem detMatrix_not_determinant :
    detMatrix 0 (ofRows [[1, 2], [3, 4]]) 0 2 2 = none
      ∧ detMatrix 1 (ofRows [[1, 2], [3, 4]]) 0 2 2 = some (-4)
      ∧ (matOf 2 (ofRows [[1, 2], [3, 4]])).det = -2
      ∧ detMatrix 0 (ofRows [[1, 2, 3], [2, 4, 6], [1, 1, 1]]) 0 3 3 = none
      ∧ detMatrix 1 (ofRows [[1, 2, 3], [2, 4, 6], [1, 1, 1]]) 0 3 3 = some (-4)
      ∧ (matOf 3 (ofRows [[1, 2, 3], [2, 4, 6], [1, 1, 1]])).det = 0 := by
  refine ⟨detMatrix_none _ 2 (by decide), by with_unfolding_all rfl, ?_,
    detMatrix_none _ 3 (by decide), by with_unfolding_all rfl, ?_⟩
  · simp [Matrix.det_fin_two, matOf, ofRows]
    norm_num
  · simp [Matrix.det_fin_three, matOf, ofRows]
    norm_num

/-- C2: on the `3 x 3` identity matrix (and on the `2 x 2` one) the C run of
`detMatrix` has no defined result, because the copy loop stores at offset `-1`
of a row block (line 241); it does not return `1`.  With that store absorbed
the value is `1`. -/
theorem detMatrix_identity_undefined :
    detMatrix 0 identity 0 3 3 = none
      ∧ detMatrix 0 identity 0 2 2 = none
      ∧ detMatrix 0 identity 0 3 3 ≠ some 1
      ∧ detMatrix 1 identity 0 3 3 = some 1 := by
  have h : detMatrix 0 identity 0 3 3 = none := detMatrix_none _ 3 (by decide)
  refine ⟨h, detMatrix_none _ 2 (by decide), ?_, padded_identity 1 3 (by decide) (by decide)⟩
  rw [h]
  exact fun hc => Option.noConfusion hc

/-- C3: on `[[1,2,3],[0,0,0],[4,5,6]]`, whose middle row is zero, the C run
of `detMatrix` has no defined result, because the copy loop stores at offset
`-1` of a row block (line 241); it does not return `0`.  With that store
absorbed the value is `0`. -/
theorem detMatrix_zero_row_undefined :
    detMatrix 0 (ofRows [[1, 2, 3], [0, 0, 0], [4, 5, 6]]) 0 3 3 = none
      ∧ detMatrix 0 (ofRows [[1, 2, 3], [0, 0, 0], [4, 5, 6]]) 0 3 3 ≠ some 0
      ∧ detMatrix 1 (ofRows [[1, 2, 3], [0, 0, 0], [4, 5, 6]]) 0 3 3 = some 0 := by
  have h : detMatrix 0 (ofRows [[1, 2, 3], [0, 0, 0], [4, 5, 6]]) 0 3 3 = none :=
    detMatrix_none _ 3 (by decide)
  have hz : ∀ j, j < 3 → ofRows [[1, 2, 3], [0, 0, 0], [4, 5, 6]] 1 j = 0 := by
    intro j hj
    interval_cases j <;> rfl
  refine ⟨h, ?_, padded_zero_row 1 3 _ 1 (by decide) (by decide) hz⟩
  rw [h]
  exact fun hc => Option.noConfusion hc

/-- C4: exchanging two rows does not negate the value of `detMatrix`.  With
the store at offset `-1` absorbed it is `-4` on `[[1,2],[3,4]]` and `-2` on
`[[3,4],[1,2]]`; the C run has no defined result on either. -/
theorem detMatrix_rowSwap_not_negated :
    detMatrix 1 (ofRows [[1, 2], [3, 4]]) 0 2 2 = some (-4)
      ∧ detMatrix 1 (rowSwap (ofRows [[1, 2], [3, 4]]) 0 1) 0 2 2 = some (-2)
      ∧ detMatrix 1 (rowSwap (ofRows [[1, 2], [3, 4]]) 0 1) 0 2 2
          ≠ (detMatrix 1 (ofRows [[1, 2], [3, 4]]) 0 2 2).map (fun d => -d)
      ∧ detMatrix 0 (ofRows [[1, 2], [3, 4]]) 0 2 2 = none
      ∧ detMatrix 0 (rowSwap (ofRows [[1, 2], [3, 4]]) 0 1) 0 2 2 = none := by
  have h1 : detMatrix 1 (ofRows [[1, 2], [3, 4]]) 0 2 2 = some (-4) := by
    with_unfolding_all rfl
  have h2 : detMatrix 1 (rowSwap (ofRows [[1, 2], [3, 4]]) 0 1) 0 2 2 = some (-2) := by
    with_unfolding_all rfl
  refine ⟨h1, h2, ?_, detMatrix_none _ 2 (by decide), detMatrix_none _ 2 (by decide)⟩
  rw [h1, h2]
  simp only [Option.map_some', ne_eq, Option.some.injEq]
  norm_num

/-- C5: the sizes computed in `main` for 5 matrices and 2 processes are
`2` and `2`; they add up to `4`, not to `5`. -/
theorem assignmentSizes_drop_remainder :
    assignmentSizes 5 2 = [2, 2] ∧ (assignmentSizes 5 2).sum = 4
      ∧ (assignmentSizes 5 2).sum ≠ 5 := by
  decide

/-- C6: `detMatrixHelper` called with dimension `0` returns the empty
product `1`, and `detMatrix` on a matrix of order `1` returns its single
coefficient; no store is made, whatever lies in front of the row blocks. -/
theorem detMatrix_order_one :
    (∀ pf : Mem, detMatrixHelper 0 pf = 1)
      ∧ (∀ (pad : Nat) (a : Mat), detMatrix pad a 0 1 1 = some (a 0 0)) := by
  constructor
  · intro pf
    rfl
  · intro pad a
    have hm : minorArray pad a 1 0 = some (flatten 0 (fun _ _ => 0) (fun _ => 0)) := rfl
    rw [detMatrix_eq_sum pad a 1 _ hm]
    have h : detMatrixHelper 0 (flatten 0 (fun _ _ => 0) (fun _ => 0)) = 1 := rfl
    simp [h]

/-- C7: for every dimension and every array whose matrix has determinant
`0`, `detMatrixHelper` returns the value `0`. -/
theorem detMatrixHelper_singular (nDim : Nat) (pfMatr : Mem)
    (h : (toMatrix nDim pfMatr).det = 0) : detMatrixHelper nDim pfMatr = 0 := by
  rcases detMatrixHelper_spec nDim pfMatr with h0 | h0
  · exact h0
  · rw [h0, h]

/-- C7, at the singular matrix `[[1,2],[2,4]]`. -/
theorem detMatrixHelper_singular_witness :
    (toMatrix 2 (flatOf [1, 2, 2, 4])).det = 0 ∧ detMatrixHelper 2 (flatOf [1, 2, 2, 4]) = 0 :=
  have hd : (toMatrix 2 (flatOf [1, 2, 2, 4])).det = 0 := by
    simp [Matrix.det_fin_two, toMatrix, flatOf]
    norm_num
  ⟨hd, detMatrixHelper_singular 2 _ hd⟩

/-- C8: in iteration `j1 = 1` on `[[1,2],[3,4]]` the C run builds no array
(store at offset `-1`); with that store absorbed the array handed to
`detMatrixHelper` holds `4`, the entry of row `1` and column `1`, whereas the
minor without row `0` and column `1` holds `3`. -/
theorem minorArray_not_expectedMinor :
    minorArray 0 (ofRows [[1, 2], [3, 4]]) 2 1 = none
      ∧ (minorArray 1 (ofRows [[1, 2], [3, 4]]) 2 1).map (fun f => f (0 * (2 - 1) + 0)) = some 4
      ∧ expectedMinor (ofRows [[1, 2], [3, 4]]) 1 0 0 = 3
      ∧ (minorArray 1 (ofRows [[1, 2], [3, 4]]) 2 1).map (fun f => f (0 * (2 - 1) + 0))
          ≠ some (expectedMinor (ofRows [[1, 2], [3, 4]]) 1 0 0) := by
  have h1 : (minorArray 1 (ofRows [[1, 2], [3, 4]]) 2 1).map (fun f => f (0 * (2 - 1) + 0))
      = some 4 := by
    with_unfolding_all rfl
  have h2 : expectedMinor (ofRows [[1, 2], [3, 4]]) 1 0 0 = 3 := rfl
  refine ⟨?_, h1, h2, ?_⟩
  · unfold minorArray
    rw [copyRows_none _ 2 _ (by decide)]
    rfl
  · rw [h1, h2]
    simp only [ne_eq, Option.some.injEq]
    norm_num

/-- C9: on `[[1,0,0],[-2,1,0],[0,0,1]]`, whose determinant is `1`,
`detMatrixHelper` returns `0`. -/
theorem detMatrixHelper_not_determinant :
    detMatrixHelper 3 (flatOf [1, 0, 0, -2, 1, 0, 0, 0, 1]) = 0
      ∧ (toMatrix 3 (flatOf [1, 0, 0, -2, 1, 0, 0, 0, 1])).det = 1 := by
  refine ⟨rfl, ?_⟩
  simp [Matrix.det_fin_three, toMatrix, flatOf]

/-- C10: on `[[1,0,0],[-2,1,0],[0,0,1]]` and `k = 0` the search selects row
`2`, whose entry in column `0` is `0`; after the exchange the pivot `0` is
smaller in absolute value than the entry `-2` of row `1`. -/
theorem pivotSearch_not_largest :
    pivotSearch 3 0 (flatOf [1, 0, 0, -2, 1, 0, 0, 0, 1]) = (0, 2)
      ∧ fabs (swapRows 3 0 2 (flatOf [1, 0, 0, -2, 1, 0, 0, 0, 1]) (0 * 3 + 0))
          < fabs (swapRows 3 0 2 (flatOf [1, 0, 0, -2, 1, 0, 0, 0, 1]) (1 * 3 + 0)) := by
  have h1 : swapRows 3 0 2 (flatOf [1, 0, 0, -2, 1, 0, 0, 0, 1]) (0 * 3 + 0) = 0 := rfl
  have h2 : swapRows 3 0 2 (flatOf [1, 0, 0, -2, 1, 0, 0, 0, 1]) (1 * 3 + 0) = -2 := rfl
  refine ⟨rfl, ?_⟩
  rw [h1, h2]
  norm_num [fabs]

end Determinante
